import Mathlib

/-!
Verification of the planning module (`IRL/planner.py`): a base `Planner`
with a shared transition-expansion helper, a value-iteration planner and a
policy-iteration planner over a finite MDP environment.

The environment is the external collaborator the planner queries; it is
modelled abstractly by the narrow interface the planner uses.  Python
floats are modelled by `ℚ`; the `while True` convergence loops are
modelled with an explicit fuel parameter, `none` meaning the loop did not
finish (either it would still be running, or a `max`/`argmax` over an
empty sequence raised).
-/

/-- The environment interface used by the planner: `observation_space.n`,
`action_space.n`, `env.reward_func` and `env.transit_func`.  The
transition mapping is a finite association list (a Python dict in
insertion order) from next state to probability. -/
structure Env where
  nS : Nat
  nA : Nat
  reward_func : Nat → ℚ × Bool
  transit_func : Nat → Nat → List (Nat × ℚ)

/-- A transition outcome `(prob, next_state, reward, done)` as yielded by
`Planner.transitions_at`; `next = none` models Python's `None` sentinel
for a terminal originating state. -/
structure Outcome where
  prob : ℚ
  next : Option Nat
  reward : ℚ
  done : Bool
deriving Repr, DecidableEq

/-- `Planner.transitions_at(state, action)`: if `state` is terminal, one
sentinel outcome; otherwise one outcome per entry of the transition
mapping, carrying the next state's reward and done flag. -/
def transitions_at (env : Env) (state action : Nat) : List Outcome :=
  let rd := env.reward_func state
  if rd.2 then
    [⟨1, none, rd.1, rd.2⟩]
  else
    (env.transit_func state action).map (fun np =>
      let rd2 := env.reward_func np.1
      ⟨np.2, some np.1, rd2.1, rd2.2⟩)

/-- The inner accumulation loop of `ValuteIterationPlanner.plan` (also of
the improvement phase of `PolicyIterationPlanner.plan`):
`reward += p * (r + gamma * V[n_s] * (not done))`, with the sentinel
outcome overwriting the accumulator by `reward = r`. -/
def backupLoop (gamma : ℚ) (V : Nat → ℚ) : ℚ → List Outcome → ℚ
  | acc, [] => acc
  | acc, o :: rest =>
    match o.next with
    | none => backupLoop gamma V o.reward rest
    | some ns =>
      backupLoop gamma V
        (acc + o.prob * (o.reward + gamma * V ns * (if o.done then 0 else 1))) rest

/-- The inner accumulation loop of
`PolicyIterationPlanner.estimate_by_policy`:
`reward += action_prob * p * (r + gamma * V[n_s] * (not done))`, with the
sentinel outcome overwriting the accumulator by `reward = r`. -/
def policyBackupLoop (actionProb gamma : ℚ) (V : Nat → ℚ) : ℚ → List Outcome → ℚ
  | acc, [] => acc
  | acc, o :: rest =>
    match o.next with
    | none => policyBackupLoop actionProb gamma V o.reward rest
    | some ns =>
      policyBackupLoop actionProb gamma V
        (acc + actionProb * o.prob * (o.reward + gamma * V ns * (if o.done then 0 else 1))) rest

/-- Python's binary `max` on rationals, written so that it evaluates by
kernel reduction. -/
def pyMax2 (a b : ℚ) : ℚ := if a < b then b else a

/-- Python's `abs`, written so that it evaluates by kernel reduction. -/
def pyAbs (x : ℚ) : ℚ := if x < 0 then -x else x

/-- Python's `max` over a list: raises (here `none`) on an empty list. -/
def pyMax : List ℚ → Option ℚ
  | [] => none
  | x :: xs => some (xs.foldl pyMax2 x)

/-- Scanning part of `np.argmax`: index of the first strictly largest
element seen so far. -/
def pyArgmaxGo (bi : Nat) (bv : ℚ) (i : Nat) : List ℚ → Nat
  | [] => bi
  | y :: ys => if bv < y then pyArgmaxGo i y (i + 1) ys else pyArgmaxGo bi bv (i + 1) ys

/-- `np.argmax` over a list: the index of the first occurrence of the
maximum; raises (here `none`) on an empty array. -/
def pyArgmax : List ℚ → Option Nat
  | [] => none
  | x :: xs => some (pyArgmaxGo 0 x 1 xs)

/-- The per-(state, action) backed-up value
`Q(s,a)` computed by the value-iteration sweep and by the policy
improvement step: the accumulation loop run over `transitions_at`. -/
def actionValue (env : Env) (gamma : ℚ) (V : Nat → ℚ) (s a : Nat) : ℚ :=
  backupLoop gamma V 0 (transitions_at env s a)

/-- The per-(state, action) accumulated value computed inside
`estimate_by_policy`, weighting by `action_prob = policy[s][a]`. -/
def policyActionValue (env : Env) (policy : Nat → Nat → ℚ) (gamma : ℚ)
    (V : Nat → ℚ) (s a : Nat) : ℚ :=
  policyBackupLoop (policy s a) gamma V 0 (transitions_at env s a)

/-- One in-place sweep over a list of states shared by both planners'
evaluation loops: `f V s` is the new value for state `s` (or `none` if
`max` raised), committed into `V` before later states are processed;
`delta` accumulates the largest absolute change. -/
def sweepGen (f : (Nat → ℚ) → Nat → Option ℚ) :
    List Nat → (Nat → ℚ) → ℚ → Option ((Nat → ℚ) × ℚ)
  | [], V, delta => some (V, delta)
  | s :: rest, V, delta =>
    match f V s with
    | none => none
    | some m => sweepGen f rest (Function.update V s m) (pyMax2 delta (pyAbs (m - V s)))

/-- A generic `while True` loop with fuel: `step` returns a candidate
result, the next loop state and a stop flag; `none` from `step` aborts,
fuel running out gives `none`. -/
def loopGen {σ ρ : Type} (step : σ → Option (ρ × σ × Bool)) : Nat → σ → Option ρ
  | 0, _ => none
  | fuel + 1, x =>
    match step x with
    | none => none
    | some (r, y, stop) => if stop then some r else loopGen step fuel y

/-- The loop state reached after `k` successful executions of `step`
(ignoring the stop flag), used to state when `loopGen` terminates. -/
def stateAfter {σ ρ : Type} (step : σ → Option (ρ × σ × Bool)) (x : σ) : Nat → Option σ
  | 0 => some x
  | k + 1 =>
    match stateAfter step x k with
    | none => none
    | some y =>
      match step y with
      | none => none
      | some (_, y2, _) => some y2

/-- One sweep body of `ValuteIterationPlanner.plan`: for every state the
list `expected_rewards` over all actions, its `max`, the in-place commit
and the `delta` update. -/
def viSweep (env : Env) (gamma : ℚ) :
    List Nat → (Nat → ℚ) → ℚ → Option ((Nat → ℚ) × ℚ) :=
  sweepGen (fun V s => pyMax ((List.range env.nA).map (actionValue env gamma V s)))

/-- One iteration of the `while True` loop of
`ValuteIterationPlanner.plan`: a full sweep, stopping when
`delta < threshold`. -/
def viStep (env : Env) (gamma threshold : ℚ) (V : Nat → ℚ) :
    Option ((Nat → ℚ) × (Nat → ℚ) × Bool) :=
  match viSweep env gamma (List.range env.nS) V 0 with
  | none => none
  | some (W, delta) => some (W, W, decide (delta < threshold))

/-- `ValuteIterationPlanner.plan(gamma, threshold)`: start from the zero
value function and sweep until `delta < threshold`. -/
def viPlan (env : Env) (gamma threshold : ℚ) (fuel : Nat) : Option (Nat → ℚ) :=
  loopGen (viStep env gamma threshold) fuel (fun _ => 0)

/-- Models `PolicyIterationPlanner.initialize`: `self.policy` is set to
`np.ones((N, M))`; the subsequent division by the action count is
assigned to a misspelled attribute `polidy`, so `self.policy` keeps the
all-ones entries. -/
def initPolicy (_env : Env) : Nat → Nat → ℚ := fun _ _ => 1

/-- The value `self.policy / self.env.action_space.n` that
`PolicyIterationPlanner.initialize` computes but stores in the unused
misspelled attribute `polidy`. -/
def initPolidy (env : Env) : Nat → Nat → ℚ := fun _ _ => 1 / env.nA

/-- One sweep body of `PolicyIterationPlanner.estimate_by_policy`: as the
value-iteration sweep, but each action's accumulated value is weighted by
`policy[s][a]`; the state's new value is still the maximum over actions. -/
def evalSweep (env : Env) (policy : Nat → Nat → ℚ) (gamma : ℚ) :
    List Nat → (Nat → ℚ) → ℚ → Option ((Nat → ℚ) × ℚ) :=
  sweepGen (fun V s => pyMax ((List.range env.nA).map (policyActionValue env policy gamma V s)))

/-- One iteration of the `while True` loop of `estimate_by_policy`. -/
def evalStep (env : Env) (policy : Nat → Nat → ℚ) (gamma threshold : ℚ)
    (V : Nat → ℚ) : Option ((Nat → ℚ) × (Nat → ℚ) × Bool) :=
  match evalSweep env policy gamma (List.range env.nS) V 0 with
  | none => none
  | some (W, delta) => some (W, W, decide (delta < threshold))

/-- `PolicyIterationPlanner.estimate_by_policy(gamma, threshold)`: start
from the zero value function and sweep until `delta < threshold`. -/
def estimate_by_policy (env : Env) (policy : Nat → Nat → ℚ)
    (gamma threshold : ℚ) (fuel : Nat) : Option (Nat → ℚ) :=
  loopGen (evalStep env policy gamma threshold) fuel (fun _ => 0)

/-- The policy-improvement pass of `PolicyIterationPlanner.plan` over a
list of states: for each state, `policy_action = np.argmax(policy[s])`,
`action_rewards[a]` by the unweighted backup, `best_action` its argmax,
the stability flag update and the unconditional one-hot overwrite of the
policy row. -/
def improveStep (env : Env) (gamma : ℚ) (V : Nat → ℚ) :
    List Nat → (Nat → Nat → ℚ) → Bool → Option ((Nat → Nat → ℚ) × Bool)
  | [], policy, stable => some (policy, stable)
  | s :: rest, policy, stable =>
    match pyArgmax ((List.range env.nA).map (policy s)) with
    | none => none
    | some policyAction =>
      match pyArgmax ((List.range env.nA).map (actionValue env gamma V s)) with
      | none => none
      | some bestAction =>
        improveStep env gamma V rest
          (Function.update policy s (fun a => if a = bestAction then 1 else 0))
          (stable && decide (policyAction = bestAction))

/-- One cycle of `PolicyIterationPlanner.plan`: evaluate the current
policy, then run one improvement pass (`update_stable` starting `True`),
returning the evaluated `V`, the new policy and the stability flag. -/
def passOnce (env : Env) (gamma threshold : ℚ) (evalFuel : Nat)
    (policy : Nat → Nat → ℚ) :
    Option ((Nat → ℚ) × (Nat → Nat → ℚ) × Bool) :=
  match estimate_by_policy env policy gamma threshold evalFuel with
  | none => none
  | some V =>
    match improveStep env gamma V (List.range env.nS) policy true with
    | none => none
    | some (policy2, stable) => some (V, policy2, stable)

/-- The `while True` loop body of `PolicyIterationPlanner.plan`, carrying
the mutated policy as loop state; the result of a stable cycle is the
last evaluated `V` together with the final policy. -/
def piStep (env : Env) (gamma threshold : ℚ) (evalFuel : Nat)
    (policy : Nat → Nat → ℚ) :
    Option (((Nat → ℚ) × (Nat → Nat → ℚ)) × (Nat → Nat → ℚ) × Bool) :=
  match passOnce env gamma threshold evalFuel policy with
  | none => none
  | some (V, policy2, stable) => some ((V, policy2), policy2, stable)

/-- `PolicyIterationPlanner.plan(gamma, threshold)` including the final
policy state: `self.initialize()` first resets `self.policy` (so the
pre-existing policy state `policy0` is discarded), then evaluation and
improvement alternate until a pass is stable. -/
def piPlanFull (env : Env) (gamma threshold : ℚ) (evalFuel planFuel : Nat)
    (_policy0 : Nat → Nat → ℚ) : Option ((Nat → ℚ) × (Nat → Nat → ℚ)) :=
  loopGen (piStep env gamma threshold evalFuel) planFuel (initPolicy env)

/-- The value array returned by `PolicyIterationPlanner.plan`. -/
def piPlan (env : Env) (gamma threshold : ℚ) (evalFuel planFuel : Nat) :
    Option (Nat → ℚ) :=
  (piPlanFull env gamma threshold evalFuel planFuel (initPolicy env)).map Prod.fst

/-- `Planner.plan` on the base abstraction: raises unconditionally. -/
def basePlan (_env : Env) (_gamma _threshold : ℚ) : Except String ((Nat → ℚ) × Env) :=
  .error "Planner have to implements plan method."

/-- The claim-level formula for the value-iteration state-action value:
the sum over the outcomes of `transitions_at` of
`p * (r + gamma * V[next] * (1 if not done else 0))`, except that an
outcome with absent next state makes the value exactly that outcome's
reward. -/
def Qclaim (env : Env) (gamma : ℚ) (V : Nat → ℚ) (s a : Nat) : ℚ :=
  match (transitions_at env s a).find? (fun o => o.next.isNone) with
  | some o => o.reward
  | none =>
    ((transitions_at env s a).map (fun o =>
      o.prob * (o.reward + gamma * V (o.next.getD 0) * (if o.done then 0 else 1)))).sum

/-- The claim-level formula for the policy-evaluation state-action value:
as `Qclaim` but each summand weighted by `policy[s][a]`; the sentinel
outcome still contributes exactly its raw reward. -/
def Qeval (env : Env) (policy : Nat → Nat → ℚ) (gamma : ℚ) (V : Nat → ℚ)
    (s a : Nat) : ℚ :=
  match (transitions_at env s a).find? (fun o => o.next.isNone) with
  | some o => o.reward
  | none =>
    ((transitions_at env s a).map (fun o =>
      policy s a * o.prob * (o.reward + gamma * V (o.next.getD 0) * (if o.done then 0 else 1)))).sum

/-- The transition expansion as C6 words it: exactly one outcome per
next state of nonzero probability (and the single sentinel outcome for a
terminal state). -/
def transitionsNonzeroClaim (env : Env) (state action : Nat) : List Outcome :=
  if (env.reward_func state).2 then
    [⟨1, none, (env.reward_func state).1, true⟩]
  else
    ((env.transit_func state action).filter (fun np => np.2 ≠ 0)).map (fun np =>
      ⟨np.2, some np.1, (env.reward_func np.1).1, (env.reward_func np.1).2⟩)

/-- The transition expansion with the C6 amendment: one outcome per entry
of the transition mapping, whatever its probability. -/
def transitionsAllClaim (env : Env) (state action : Nat) : List Outcome :=
  if (env.reward_func state).2 then
    [⟨1, none, (env.reward_func state).1, true⟩]
  else
    (env.transit_func state action).map (fun np =>
      ⟨np.2, some np.1, (env.reward_func np.1).1, (env.reward_func np.1).2⟩)

/-- The partially-updated value function seen by state `s` inside an
in-place sweep: states before `s` already updated to `W`, the rest still
at the pre-sweep `V`. -/
def mixV (W V : Nat → ℚ) (s : Nat) : Nat → ℚ := fun t => if t < s then W t else V t

/-- A two-state test environment: state 0 steps to the terminal state 1
of reward 1. -/
def envChain : Env where
  nS := 2
  nA := 1
  reward_func := fun s => if s = 1 then (1, true) else (0, false)
  transit_func := fun s a => if s = 0 ∧ a = 0 then [(1, 1)] else []

/-- A one-state test environment whose only state is terminal with
reward 1. -/
def envOne : Env where
  nS := 1
  nA := 1
  reward_func := fun _ => (1, true)
  transit_func := fun _ _ => []

/-- A one-state, two-action test environment, exercising the policy
initialization. -/
def envTwoAct : Env where
  nS := 1
  nA := 2
  reward_func := fun _ => (0, true)
  transit_func := fun _ _ => []

/-- A test environment whose transition mapping holds an entry of
probability zero (probabilities still sum to 1). -/
def envZeroProb : Env where
  nS := 2
  nA := 1
  reward_func := fun s => if s = 1 then (1, true) else (0, false)
  transit_func := fun _ _ => [(1, 1), (0, 0)]

lemma pyMax2_eq_max (a b : ℚ) : pyMax2 a b = max a b := by
  simp only [pyMax2, max_def]
  split_ifs with h1 h2 h2 <;> first
  | rfl
  | exact absurd (le_of_lt h1) h2
  | exact le_antisymm h2 (not_lt.mp h1)

lemma pyAbs_eq_abs (x : ℚ) : pyAbs x = |x| := by
  by_cases h : x < 0
  · simp [pyAbs, h, abs_of_neg h]
  · simp [pyAbs, h, abs_of_nonneg (not_lt.mp h)]

lemma transitions_at_of_done (env : Env) {s : Nat} (a : Nat)
    (h : (env.reward_func s).2 = true) :
    transitions_at env s a = [⟨1, none, (env.reward_func s).1, true⟩] := by
  simp [transitions_at, h]

lemma transitions_at_of_not_done (env : Env) {s : Nat} (a : Nat)
    (h : (env.reward_func s).2 = false) :
    transitions_at env s a = (env.transit_func s a).map (fun np =>
      ⟨np.2, some np.1, (env.reward_func np.1).1, (env.reward_func np.1).2⟩) := by
  simp [transitions_at, h]

lemma backupLoop_eq_sum (gamma : ℚ) (V : Nat → ℚ) (l : List Outcome)
    (h : ∀ o ∈ l, o.next.isSome = true) (acc : ℚ) :
    backupLoop gamma V acc l =
      acc + (l.map (fun o =>
        o.prob * (o.reward + gamma * V (o.next.getD 0) * (if o.done then 0 else 1)))).sum := by
  induction l generalizing acc with
  | nil => simp [backupLoop]
  | cons o rest ih =>
    obtain ⟨ns, hns⟩ := Option.isSome_iff_exists.mp (h o (List.mem_cons_self o rest))
    have hrest : ∀ o ∈ rest, o.next.isSome = true := fun o ho => h o (List.mem_cons_of_mem _ ho)
    simp only [backupLoop, hns, List.map_cons, List.sum_cons, ih hrest]
    simp only [Option.getD_some]
    ring

lemma policyBackupLoop_eq_sum (actionProb gamma : ℚ) (V : Nat → ℚ) (l : List Outcome)
    (h : ∀ o ∈ l, o.next.isSome = true) (acc : ℚ) :
    policyBackupLoop actionProb gamma V acc l =
      acc + (l.map (fun o =>
        actionProb * o.prob * (o.reward + gamma * V (o.next.getD 0) * (if o.done then 0 else 1)))).sum := by
  induction l generalizing acc with
  | nil => simp [policyBackupLoop]
  | cons o rest ih =>
    obtain ⟨ns, hns⟩ := Option.isSome_iff_exists.mp (h o (List.mem_cons_self o rest))
    have hrest : ∀ o ∈ rest, o.next.isSome = true := fun o ho => h o (List.mem_cons_of_mem _ ho)
    simp only [policyBackupLoop, hns, List.map_cons, List.sum_cons, ih hrest]
    simp only [Option.getD_some]
    ring

lemma actionValue_eq_Qclaim (env : Env) (gamma : ℚ) (V : Nat → ℚ) (s a : Nat) :
    actionValue env gamma V s a = Qclaim env gamma V s a := by
  rcases hd : (env.reward_func s).2 with _ | _
  · have htr := transitions_at_of_not_done env a hd
    have hsome : ∀ o ∈ transitions_at env s a, o.next.isSome = true := by
      rw [htr]; rintro o ho
      obtain ⟨np, _, rfl⟩ := List.mem_map.mp ho
      rfl
    have hfind : (transitions_at env s a).find? (fun o => o.next.isNone) = none := by
      rw [List.find?_eq_none]
      intro o ho
      have := hsome o ho
      simp [Option.isNone_iff_eq_none]
      exact Option.isSome_iff_ne_none.mp this
    rw [actionValue, Qclaim, hfind, backupLoop_eq_sum gamma V _ hsome 0, zero_add]
  · have htr := transitions_at_of_done env a hd
    rw [actionValue, Qclaim, htr]
    simp [backupLoop, List.find?]

lemma policyActionValue_eq_Qeval (env : Env) (policy : Nat → Nat → ℚ) (gamma : ℚ)
    (V : Nat → ℚ) (s a : Nat) :
    policyActionValue env policy gamma V s a = Qeval env policy gamma V s a := by
  rcases hd : (env.reward_func s).2 with _ | _
  · have htr := transitions_at_of_not_done env a hd
    have hsome : ∀ o ∈ transitions_at env s a, o.next.isSome = true := by
      rw [htr]; rintro o ho
      obtain ⟨np, _, rfl⟩ := List.mem_map.mp ho
      rfl
    have hfind : (transitions_at env s a).find? (fun o => o.next.isNone) = none := by
      rw [List.find?_eq_none]
      intro o ho
      have := hsome o ho
      simp [Option.isNone_iff_eq_none]
      exact Option.isSome_iff_ne_none.mp this
    rw [policyActionValue, Qeval, hfind, policyBackupLoop_eq_sum _ gamma V _ hsome 0, zero_add]
  · have htr := transitions_at_of_done env a hd
    rw [policyActionValue, Qeval, htr]
    simp [policyBackupLoop, List.find?]

lemma actionValue_of_done (env : Env) (gamma : ℚ) (V : Nat → ℚ) {s : Nat} (a : Nat)
    (h : (env.reward_func s).2 = true) :
    actionValue env gamma V s a = (env.reward_func s).1 := by
  rw [actionValue, transitions_at_of_done env a h]
  simp [backupLoop]

lemma policyActionValue_of_done (env : Env) (policy : Nat → Nat → ℚ) (gamma : ℚ)
    (V : Nat → ℚ) {s : Nat} (a : Nat) (h : (env.reward_func s).2 = true) :
    policyActionValue env policy gamma V s a = (env.reward_func s).1 := by
  rw [policyActionValue, transitions_at_of_done env a h]
  simp [policyBackupLoop]

lemma pyMax_map_const {c : ℚ} : ∀ {n : Nat}, 0 < n →
    pyMax ((List.range n).map (fun _ => c)) = some c := by
  intro n hn
  obtain ⟨m, rfl⟩ := Nat.exists_eq_succ_of_ne_zero (Nat.pos_iff_ne_zero.mp hn)
  have hrep : (List.range (m + 1)).map (fun _ => c) = List.replicate (m + 1) c := by
    simp [List.eq_replicate_iff]
  rw [hrep]
  have : ∀ k, (List.replicate k c).foldl pyMax2 c = c := by
    intro k
    induction k with
    | zero => rfl
    | succ k ih => simpa [List.replicate_succ, pyMax2] using ih
  simp [List.replicate_succ, pyMax, this m]

lemma pyMax_isSome {l : List ℚ} (h : l ≠ []) : (pyMax l).isSome = true := by
  cases l with
  | nil => exact absurd rfl h
  | cons x xs => rfl

lemma pyArgmax_isSome {l : List ℚ} (h : l ≠ []) : (pyArgmax l).isSome = true := by
  cases l with
  | nil => exact absurd rfl h
  | cons x xs => rfl

lemma range_map_ne_nil {n : Nat} (hn : 0 < n) (f : Nat → ℚ) :
    (List.range n).map f ≠ [] := by
  simp [List.map_eq_nil_iff, List.range_eq_nil]
  omega

lemma sweepGen_range'_spec (f : (Nat → ℚ) → Nat → Option ℚ) :
    ∀ (k s : Nat) (V : Nat → ℚ) (d : ℚ) (W : Nat → ℚ) (delta : ℚ),
      sweepGen f (List.range' s k) V d = some (W, delta) →
      (∀ t, t < s ∨ s + k ≤ t → W t = V t) ∧
      (∀ i, s ≤ i → i < s + k → f (mixV W V i) i = some (W i)) ∧
      delta = ((List.range' s k).map (fun i => |W i - V i|)).foldl max d := by
  intro k
  induction k with
  | zero =>
    intro s V d W delta h
    simp only [List.range'_zero, sweepGen, Option.some.injEq, Prod.mk.injEq] at h
    obtain ⟨rfl, rfl⟩ := h
    refine ⟨fun t _ => rfl, fun i h1 h2 => absurd h2 (by omega), by simp⟩
  | succ k ih =>
    intro s V d W delta h
    rw [List.range'_succ] at h
    simp only [sweepGen] at h
    cases hfs : f V s with
    | none => rw [hfs] at h; exact absurd h (by simp)
    | some m =>
      rw [hfs] at h
      obtain ⟨h1, h2, h3⟩ := ih (s + 1) (Function.update V s m)
        (pyMax2 d (pyAbs (m - V s))) W delta h
      have hWs : W s = m := by
        rw [h1 s (Or.inl (by omega)), Function.update_same]
      have hkeep : ∀ t, t ≠ s → Function.update V s m t = V t :=
        fun t ht => Function.update_noteq ht m V
      have hout : ∀ t, t < s ∨ s + (k + 1) ≤ t → W t = V t := by
        intro t ht
        have hts : t ≠ s := by omega
        have : W t = Function.update V s m t :=
          h1 t (by omega)
        rw [this, hkeep t hts]
      refine ⟨hout, ?_, ?_⟩
      · intro i hsi hik
        rcases Nat.eq_or_lt_of_le hsi with heq | hlt
        · subst heq
          have hmix : mixV W V s = V := by
            funext t
            simp only [mixV]
            split_ifs with ht
            · exact hout t (Or.inl ht)
            · rfl
          rw [hmix, hfs, hWs]
          
        · have hmix : mixV W V i = mixV W (Function.update V s m) i := by
            funext t
            simp only [mixV]
            split_ifs with ht
            · rfl
            · exact (hkeep t (by omega)).symm
          rw [hmix]
          exact h2 i (by omega) (by omega)
      · rw [List.range'_succ, List.map_cons, List.foldl_cons]
        have hcong : (List.range' (s + 1) k).map (fun i => |W i - Function.update V s m i|) =
            (List.range' (s + 1) k).map (fun i => |W i - V i|) := by
          refine List.map_congr_left ?_
          intro i hi
          have : s + 1 ≤ i := (List.mem_range'_1.mp hi).1
          rw [hkeep i (by omega)]
        rw [h3, hcong, hWs, pyMax2_eq_max, pyAbs_eq_abs]

lemma stateAfter_none_of_none {σ ρ : Type} (step : σ → Option (ρ × σ × Bool)) (x : σ)
    (hx : step x = none) : ∀ k, stateAfter step x (k + 1) = none := by
  intro k
  induction k with
  | zero => simp [stateAfter, hx]
  | succ k ih => rw [stateAfter, ih]

lemma stateAfter_front {σ ρ : Type} (step : σ → Option (ρ × σ × Bool)) (x y : σ)
    (r : ρ) (b : Bool) (hx : step x = some (r, y, b)) :
    ∀ k, stateAfter step x (k + 1) = stateAfter step y k := by
  intro k
  induction k with
  | zero => simp [stateAfter, hx]
  | succ k ih => rw [stateAfter, ih]; rfl

lemma loopGen_eq_some_iff {σ ρ : Type} (step : σ → Option (ρ × σ × Bool)) :
    ∀ (f : Nat) (x : σ) (r : ρ), loopGen step f x = some r ↔
      ∃ k, k < f ∧ ∃ y, stateAfter step x k = some y ∧
        ∃ x2, step y = some (r, x2, true) ∧
          ∀ j, j < k → ∀ y2 r2 x3 b, stateAfter step x j = some y2 →
            step y2 = some (r2, x3, b) → b = false := by
  intro f
  induction f with
  | zero =>
    intro x r
    simp only [loopGen]
    constructor
    · intro h; exact absurd h (by simp)
    · rintro ⟨k, hk, -⟩; omega
  | succ f ih =>
    intro x r
    cases hx : step x with
    | none =>
      simp only [loopGen, hx]
      constructor
      · intro h; exact absurd h (by simp)
      · rintro ⟨k, hk, y, hy, x2, hstep, -⟩
        cases k with
        | zero =>
          simp only [stateAfter, Option.some.injEq] at hy
          subst hy
          rw [hx] at hstep
          exact absurd hstep (by simp)
        | succ j =>
          rw [stateAfter_none_of_none step x hx j] at hy
          exact absurd hy (by simp)
    | some rxb =>
      obtain ⟨r0, x1, b0⟩ := rxb
      cases b0 with
      | true =>
        simp only [loopGen, hx, if_pos rfl]
        constructor
        · intro h
          have hr : r0 = r := by simpa using h
          subst hr
          exact ⟨0, by omega, x, rfl, x1, hx, fun j hj => by omega⟩
        · rintro ⟨k, hk, y, hy, x2, hstep, hjs⟩
          cases k with
          | zero =>
            simp only [stateAfter, Option.some.injEq] at hy
            subst hy
            rw [hx] at hstep
            simp only [Option.some.injEq, Prod.mk.injEq] at hstep
            simp [hstep.1]
          | succ j =>
            have := hjs 0 (by omega) x r0 x1 true rfl hx
            exact absurd this (by simp)
      | false =>
        have hloop : loopGen step (f + 1) x = loopGen step f x1 := by
          simp [loopGen, hx]
        rw [hloop, ih x1 r]
        constructor
        · rintro ⟨k, hk, y, hy, x2, hstep, hjs⟩
          refine ⟨k + 1, by omega, y, ?_, x2, hstep, ?_⟩
          · rw [stateAfter_front step x x1 r0 false hx k]; exact hy
          · intro j hj y2 r2 x3 b hy2 hstep2
            cases j with
            | zero =>
              simp only [stateAfter, Option.some.injEq] at hy2
              subst hy2
              rw [hx] at hstep2
              simp only [Option.some.injEq, Prod.mk.injEq] at hstep2
              exact hstep2.2.2.symm
            | succ j2 =>
              rw [stateAfter_front step x x1 r0 false hx j2] at hy2
              exact hjs j2 (by omega) y2 r2 x3 b hy2 hstep2
        · rintro ⟨k, hk, y, hy, x2, hstep, hjs⟩
          cases k with
          | zero =>
            simp only [stateAfter, Option.some.injEq] at hy
            subst hy
            rw [hx] at hstep
            simp only [Option.some.injEq, Prod.mk.injEq] at hstep
            exact absurd hstep.2.2 (by simp)
          | succ j =>
            rw [stateAfter_front step x x1 r0 false hx j] at hy
            refine ⟨j, by omega, y, hy, x2, hstep, ?_⟩
            intro j2 hj2 y2 r2 x3 b hy2 hstep2
            rw [← stateAfter_front step x x1 r0 false hx j2] at hy2
            exact hjs (j2 + 1) (by omega) y2 r2 x3 b hy2 hstep2

lemma loopGen_some_last {σ ρ : Type} (step : σ → Option (ρ × σ × Bool)) :
    ∀ (f : Nat) (x : σ) (r : ρ), loopGen step f x = some r →
      ∃ y x2, step y = some (r, x2, true) := by
  intro f
  induction f with
  | zero => intro x r h; exact absurd h (by simp [loopGen])
  | succ f ih =>
    intro x r h
    cases hx : step x with
    | none => rw [loopGen, hx] at h; exact absurd h (by simp)
    | some rxb =>
      obtain ⟨r0, x1, b0⟩ := rxb
      rw [loopGen, hx] at h
      cases b0 with
      | true =>
        have : r0 = r := by simpa using h
        subst this
        exact ⟨x, x1, hx⟩
      | false =>
        simp only [Bool.false_eq_true, if_false] at h
        exact ih x1 r h

lemma improveStep_range'_spec (env : Env) (gamma : ℚ) (V : Nat → ℚ) :
    ∀ (k s0 : Nat) (pol : Nat → Nat → ℚ) (stable : Bool) (pol2 : Nat → Nat → ℚ)
      (stable2 : Bool),
      improveStep env gamma V (List.range' s0 k) pol stable = some (pol2, stable2) →
      (∀ s, s < s0 ∨ s0 + k ≤ s → pol2 s = pol s) ∧
      (∀ s, s0 ≤ s → s < s0 + k →
        ∃ ba, pyArgmax ((List.range env.nA).map (actionValue env gamma V s)) = some ba ∧
          pol2 s = fun a => if a = ba then 1 else 0) ∧
      (stable2 = true ↔ stable = true ∧ ∀ s, s0 ≤ s → s < s0 + k →
        pyArgmax ((List.range env.nA).map (pol s)) =
          pyArgmax ((List.range env.nA).map (actionValue env gamma V s))) := by
  intro k
  induction k with
  | zero =>
    intro s0 pol stable pol2 stable2 h
    simp only [List.range'_zero, improveStep, Option.some.injEq, Prod.mk.injEq] at h
    obtain ⟨rfl, rfl⟩ := h
    refine ⟨fun s _ => rfl, fun s h1 h2 => absurd h2 (by omega), ?_⟩
    constructor
    · intro h; exact ⟨h, fun s h1 h2 => absurd h2 (by omega)⟩
    · intro h; exact h.1
  | succ k ih =>
    intro s0 pol stable pol2 stable2 h
    rw [List.range'_succ] at h
    simp only [improveStep] at h
    cases hpa : pyArgmax ((List.range env.nA).map (pol s0)) with
    | none => rw [hpa] at h; exact absurd h (by simp)
    | some pa =>
      rw [hpa] at h
      cases hba : pyArgmax ((List.range env.nA).map (actionValue env gamma V s0)) with
      | none => rw [hba] at h; exact absurd h (by simp)
      | some ba =>
        rw [hba] at h
        obtain ⟨h1, h2, h3⟩ := ih (s0 + 1)
          (Function.update pol s0 (fun a => if a = ba then 1 else 0))
          (stable && decide (pa = ba)) pol2 stable2 h
        have hkeep : ∀ s, s ≠ s0 →
            Function.update pol s0 (fun a => if a = ba then 1 else 0) s = pol s :=
          fun s hs => Function.update_noteq hs _ pol
        have hout : ∀ s, s < s0 ∨ s0 + (k + 1) ≤ s → pol2 s = pol s := by
          intro s hs
          rw [h1 s (by omega), hkeep s (by omega)]
        refine ⟨hout, ?_, ?_⟩
        · intro s hs0 hsk
          rcases Nat.eq_or_lt_of_le hs0 with heq | hlt
          · refine ⟨ba, by rw [← heq]; exact hba, ?_⟩
            rw [← heq, h1 s0 (by omega), Function.update_same]
          · exact h2 s (by omega) (by omega)
        · have hrows : ∀ s, s0 + 1 ≤ s → s < s0 + 1 + k →
              pyArgmax ((List.range env.nA).map
                (Function.update pol s0 (fun a => if a = ba then 1 else 0) s)) =
              pyArgmax ((List.range env.nA).map (pol s)) := by
            intro s hs1 hs2
            rw [hkeep s (by omega)]
          rw [h3]
          constructor
          · rintro ⟨hst, hall⟩
            have hhead : stable = true ∧ pa = ba := by
              constructor
              · exact (Bool.and_eq_true _ _ ▸ hst).1
              · have := (Bool.and_eq_true _ _ ▸ hst).2
                exact of_decide_eq_true this
            refine ⟨hhead.1, ?_⟩
            intro s hs1 hs2
            rcases Nat.eq_or_lt_of_le hs1 with heq | hlt
            · rw [← heq, hpa, hba, hhead.2]
            · rw [← hrows s (by omega) (by omega)]
              exact hall s (by omega) (by omega)
          · rintro ⟨hst, hall⟩
            have hpab : pa = ba := by
              have := hall s0 (by omega) (by omega)
              rw [hpa, hba] at this
              exact Option.some.inj this
            constructor
            · rw [hst, hpab]
              simp
            · intro s hs1 hs2
              rw [hrows s (by omega) (by omega)]
              exact hall s (by omega) (by omega)

lemma viStep_inv (env : Env) (gamma threshold : ℚ) (V W X : Nat → ℚ) (b : Bool)
    (h : viStep env gamma threshold V = some (W, X, b)) :
    X = W ∧ ∃ delta, viSweep env gamma (List.range env.nS) V 0 = some (W, delta) ∧
      b = decide (delta < threshold) := by
  rw [viStep] at h
  cases hs : viSweep env gamma (List.range env.nS) V 0 with
  | none => rw [hs] at h; exact absurd h (by simp)
  | some Wd =>
    obtain ⟨W0, d0⟩ := Wd
    rw [hs] at h
    simp only [Option.some.injEq, Prod.mk.injEq] at h
    obtain ⟨rfl, rfl, rfl⟩ := h
    exact ⟨rfl, d0, rfl, rfl⟩

lemma evalStep_inv (env : Env) (policy : Nat → Nat → ℚ) (gamma threshold : ℚ)
    (V W X : Nat → ℚ) (b : Bool)
    (h : evalStep env policy gamma threshold V = some (W, X, b)) :
    X = W ∧ ∃ delta, evalSweep env policy gamma (List.range env.nS) V 0 = some (W, delta) ∧
      b = decide (delta < threshold) := by
  rw [evalStep] at h
  cases hs : evalSweep env policy gamma (List.range env.nS) V 0 with
  | none => rw [hs] at h; exact absurd h (by simp)
  | some Wd =>
    obtain ⟨W0, d0⟩ := Wd
    rw [hs] at h
    simp only [Option.some.injEq, Prod.mk.injEq] at h
    obtain ⟨rfl, rfl, rfl⟩ := h
    exact ⟨rfl, d0, rfl, rfl⟩

lemma piStep_inv (env : Env) (gamma threshold : ℚ) (evalFuel : Nat)
    (pol : Nat → Nat → ℚ) (V : Nat → ℚ) (p2 p3 : Nat → Nat → ℚ) (st : Bool)
    (h : piStep env gamma threshold evalFuel pol = some ((V, p2), p3, st)) :
    p3 = p2 ∧ estimate_by_policy env pol gamma threshold evalFuel = some V ∧
      improveStep env gamma V (List.range env.nS) pol true = some (p2, st) := by
  rw [piStep, passOnce] at h
  cases he : estimate_by_policy env pol gamma threshold evalFuel with
  | none => rw [he] at h; exact absurd h (by simp)
  | some V1 =>
    rw [he] at h
    cases hi : improveStep env gamma V1 (List.range env.nS) pol true with
    | none => simp only [hi] at h; exact absurd h (by simp)
    | some ps =>
      obtain ⟨p1, st1⟩ := ps
      simp only [hi, Option.some.injEq, Prod.mk.injEq] at h
      obtain ⟨⟨hV, hp2⟩, hp3, hst⟩ := h
      subst hV; subst hp2; subst hp3; subst hst
      exact ⟨rfl, rfl, hi⟩

lemma viSweep_terminal (env : Env) (gamma : ℚ) {V W : Nat → ℚ} {delta : ℚ}
    (h : viSweep env gamma (List.range env.nS) V 0 = some (W, delta)) {s : Nat}
    (hs : s < env.nS) (hterm : (env.reward_func s).2 = true) :
    W s = (env.reward_func s).1 := by
  rw [viSweep, List.range_eq_range' env.nS] at h
  obtain ⟨-, h2, -⟩ := sweepGen_range'_spec _ env.nS 0 V 0 W delta h
  have hf := h2 s (by omega) (by omega)
  have hconst : (List.range env.nA).map (actionValue env gamma (mixV W V s) s) =
      (List.range env.nA).map (fun _ => (env.reward_func s).1) :=
    List.map_congr_left (fun a _ => actionValue_of_done env gamma _ a hterm)
  rw [hconst] at hf
  have hpos : 0 < env.nA := by
    by_contra h0
    have hz : env.nA = 0 := by omega
    rw [hz] at hf
    simp [pyMax] at hf
  rw [pyMax_map_const hpos] at hf
  exact (Option.some.inj hf).symm

lemma evalSweep_terminal (env : Env) (policy : Nat → Nat → ℚ) (gamma : ℚ)
    {V W : Nat → ℚ} {delta : ℚ}
    (h : evalSweep env policy gamma (List.range env.nS) V 0 = some (W, delta)) {s : Nat}
    (hs : s < env.nS) (hterm : (env.reward_func s).2 = true) :
    W s = (env.reward_func s).1 := by
  rw [evalSweep, List.range_eq_range' env.nS] at h
  obtain ⟨-, h2, -⟩ := sweepGen_range'_spec _ env.nS 0 V 0 W delta h
  have hf := h2 s (by omega) (by omega)
  have hconst : (List.range env.nA).map (policyActionValue env policy gamma (mixV W V s) s) =
      (List.range env.nA).map (fun _ => (env.reward_func s).1) :=
    List.map_congr_left (fun a _ => policyActionValue_of_done env policy gamma _ a hterm)
  rw [hconst] at hf
  have hpos : 0 < env.nA := by
    by_contra h0
    have hz : env.nA = 0 := by omega
    rw [hz] at hf
    simp [pyMax] at hf
  rw [pyMax_map_const hpos] at hf
  exact (Option.some.inj hf).symm

lemma sweepGen_isSome (f : (Nat → ℚ) → Nat → Option ℚ)
    (hf : ∀ V s, (f V s).isSome = true) :
    ∀ (l : List Nat) (V : Nat → ℚ) (d : ℚ), (sweepGen f l V d).isSome = true := by
  intro l
  induction l with
  | nil => intro V d; rfl
  | cons s rest ih =>
    intro V d
    rw [sweepGen]
    obtain ⟨m, hm⟩ := Option.isSome_iff_exists.mp (hf V s)
    rw [hm]
    exact ih _ _

lemma improveStep_isSome (env : Env) (gamma : ℚ) (V : Nat → ℚ) (hA : 0 < env.nA) :
    ∀ (l : List Nat) (pol : Nat → Nat → ℚ) (stable : Bool),
      (improveStep env gamma V l pol stable).isSome = true := by
  intro l
  induction l with
  | nil => intro pol stable; rfl
  | cons s rest ih =>
    intro pol stable
    rw [improveStep]
    obtain ⟨pa, hpa⟩ := Option.isSome_iff_exists.mp
      (pyArgmax_isSome (range_map_ne_nil hA (pol s)))
    obtain ⟨ba, hba⟩ := Option.isSome_iff_exists.mp
      (pyArgmax_isSome (range_map_ne_nil hA (actionValue env gamma V s)))
    rw [hpa, hba]
    exact ih _ _

lemma viPlan_eq_some_iff (env : Env) (gamma threshold : ℚ) (fuel : Nat) (W : Nat → ℚ) :
    viPlan env gamma threshold fuel = some W ↔
      ∃ k, k < fuel ∧ ∃ V2, stateAfter (viStep env gamma threshold) (fun _ => 0) k = some V2 ∧
        ∃ delta, viSweep env gamma (List.range env.nS) V2 0 = some (W, delta) ∧
          delta < threshold ∧
          ∀ j, j < k → ∀ V3, stateAfter (viStep env gamma threshold) (fun _ => 0) j = some V3 →
            ∀ W2 delta2, viSweep env gamma (List.range env.nS) V3 0 = some (W2, delta2) →
              threshold ≤ delta2 := by
  rw [viPlan, loopGen_eq_some_iff]
  constructor
  · rintro ⟨k, hk, y, hy, x2, hstep, hjs⟩
    obtain ⟨-, delta, hsweep, hb⟩ := viStep_inv env gamma threshold y W x2 true hstep
    refine ⟨k, hk, y, hy, delta, hsweep, of_decide_eq_true hb.symm, ?_⟩
    intro j hj V3 hV3 W2 delta2 hsw2
    have hstep2 : viStep env gamma threshold V3 = some (W2, W2, decide (delta2 < threshold)) := by
      rw [viStep, hsw2]
    have := hjs j hj V3 W2 W2 (decide (delta2 < threshold)) hV3 hstep2
    exact le_of_not_lt (of_decide_eq_false this)
  · rintro ⟨k, hk, V2, hV2, delta, hsweep, hdt, hjs⟩
    refine ⟨k, hk, V2, hV2, W, ?_, ?_⟩
    · rw [viStep, hsweep]
      simp [hdt]
    · intro j hj y2 r2 x3 b hy2 hstep2
      obtain ⟨-, delta2, hsw2, hb⟩ := viStep_inv env gamma threshold y2 r2 x3 b hstep2
      have := hjs j hj y2 hy2 r2 delta2 hsw2
      rw [hb, decide_eq_false_iff_not]
      exact not_lt.mpr this

lemma estimate_eq_some_iff (env : Env) (policy : Nat → Nat → ℚ) (gamma threshold : ℚ)
    (fuel : Nat) (W : Nat → ℚ) :
    estimate_by_policy env policy gamma threshold fuel = some W ↔
      ∃ k, k < fuel ∧
        ∃ V2, stateAfter (evalStep env policy gamma threshold) (fun _ => 0) k = some V2 ∧
        ∃ delta, evalSweep env policy gamma (List.range env.nS) V2 0 = some (W, delta) ∧
          delta < threshold ∧
          ∀ j, j < k →
            ∀ V3, stateAfter (evalStep env policy gamma threshold) (fun _ => 0) j = some V3 →
            ∀ W2 delta2, evalSweep env policy gamma (List.range env.nS) V3 0 = some (W2, delta2) →
              threshold ≤ delta2 := by
  rw [estimate_by_policy, loopGen_eq_some_iff]
  constructor
  · rintro ⟨k, hk, y, hy, x2, hstep, hjs⟩
    obtain ⟨-, delta, hsweep, hb⟩ := evalStep_inv env policy gamma threshold y W x2 true hstep
    refine ⟨k, hk, y, hy, delta, hsweep, of_decide_eq_true hb.symm, ?_⟩
    intro j hj V3 hV3 W2 delta2 hsw2
    have hstep2 : evalStep env policy gamma threshold V3 =
        some (W2, W2, decide (delta2 < threshold)) := by
      rw [evalStep, hsw2]
    have := hjs j hj V3 W2 W2 (decide (delta2 < threshold)) hV3 hstep2
    exact le_of_not_lt (of_decide_eq_false this)
  · rintro ⟨k, hk, V2, hV2, delta, hsweep, hdt, hjs⟩
    refine ⟨k, hk, V2, hV2, W, ?_, ?_⟩
    · rw [evalStep, hsweep]
      simp [hdt]
    · intro j hj y2 r2 x3 b hy2 hstep2
      obtain ⟨-, delta2, hsw2, hb⟩ := evalStep_inv env policy gamma threshold y2 r2 x3 b hstep2
      have := hjs j hj y2 hy2 r2 delta2 hsw2
      rw [hb, decide_eq_false_iff_not]
      exact not_lt.mpr this

lemma piPlan_eq_some_iff (env : Env) (gamma threshold : ℚ) (evalFuel planFuel : Nat)
    (V : Nat → ℚ) :
    piPlan env gamma threshold evalFuel planFuel = some V ↔
      ∃ k, k < planFuel ∧
        ∃ pol, stateAfter (piStep env gamma threshold evalFuel) (initPolicy env) k = some pol ∧
        ∃ pol2, estimate_by_policy env pol gamma threshold evalFuel = some V ∧
          improveStep env gamma V (List.range env.nS) pol true = some (pol2, true) ∧
          ∀ j, j < k →
            ∀ pol3, stateAfter (piStep env gamma threshold evalFuel) (initPolicy env) j = some pol3 →
            ∀ V2 pol4 st, estimate_by_policy env pol3 gamma threshold evalFuel = some V2 →
              improveStep env gamma V2 (List.range env.nS) pol3 true = some (pol4, st) →
              st = false := by
  rw [piPlan, piPlanFull]
  constructor
  · intro h
    obtain ⟨pr, hlg, hfst⟩ := Option.map_eq_some'.mp h
    obtain ⟨V0, p0⟩ := pr
    simp only at hfst
    subst hfst
    obtain ⟨k, hk, pol, hpol, x2, hstep, hjs⟩ := (loopGen_eq_some_iff _ planFuel _ _).mp hlg
    obtain ⟨-, hest, himp⟩ := piStep_inv env gamma threshold evalFuel pol _ _ _ _ hstep
    refine ⟨k, hk, pol, hpol, p0, hest, himp, ?_⟩
    intro j hj pol3 hpol3 V2 pol4 st hest2 himp2
    have hstep2 : piStep env gamma threshold evalFuel pol3 = some ((V2, pol4), pol4, st) := by
      rw [piStep, passOnce, hest2]
      simp only [himp2]
    exact hjs j hj pol3 (V2, pol4) pol4 st hpol3 hstep2
  · rintro ⟨k, hk, pol, hpol, pol2, hest, himp, hjs⟩
    have hstep : piStep env gamma threshold evalFuel pol = some ((V, pol2), pol2, true) := by
      rw [piStep, passOnce, hest]
      simp only [himp]
    have hlg : loopGen (piStep env gamma threshold evalFuel) planFuel (initPolicy env) =
        some (V, pol2) := by
      rw [loopGen_eq_some_iff]
      refine ⟨k, hk, pol, hpol, pol2, hstep, ?_⟩
      intro j hj y2 r2 x3 b hy2 hstep2
      obtain ⟨V2, p4⟩ := r2
      obtain ⟨-, hest2, himp2⟩ := piStep_inv env gamma threshold evalFuel y2 V2 p4 x3 b hstep2
      exact hjs j hj y2 hy2 V2 p4 b hest2 himp2
    rw [hlg]
    rfl

lemma viSweep_spec (env : Env) (gamma : ℚ) (V W : Nat → ℚ) (delta : ℚ)
    (h : viSweep env gamma (List.range env.nS) V 0 = some (W, delta)) :
    (∀ s, s < env.nS →
      pyMax ((List.range env.nA).map (Qclaim env gamma (mixV W V s) s)) = some (W s)) ∧
    (∀ s, env.nS ≤ s → W s = V s) ∧
    delta = ((List.range env.nS).map (fun s => |W s - V s|)).foldl max 0 := by
  rw [viSweep, List.range_eq_range' env.nS] at h
  obtain ⟨h1, h2, h3⟩ := sweepGen_range'_spec _ env.nS 0 V 0 W delta h
  refine ⟨?_, ?_, ?_⟩
  · intro s hs
    have := h2 s (by omega) (by omega)
    rw [List.map_congr_left
      (fun a _ => (actionValue_eq_Qclaim env gamma (mixV W V s) s a).symm)]
    exact this
  · intro s hs
    exact h1 s (by omega)
  · rw [List.range_eq_range' env.nS]
    exact h3

lemma evalSweep_spec (env : Env) (policy : Nat → Nat → ℚ) (gamma : ℚ) (V W : Nat → ℚ)
    (delta : ℚ)
    (h : evalSweep env policy gamma (List.range env.nS) V 0 = some (W, delta)) :
    (∀ s, s < env.nS →
      pyMax ((List.range env.nA).map (Qeval env policy gamma (mixV W V s) s)) = some (W s)) ∧
    (∀ s, env.nS ≤ s → W s = V s) ∧
    delta = ((List.range env.nS).map (fun s => |W s - V s|)).foldl max 0 := by
  rw [evalSweep, List.range_eq_range' env.nS] at h
  obtain ⟨h1, h2, h3⟩ := sweepGen_range'_spec _ env.nS 0 V 0 W delta h
  refine ⟨?_, ?_, ?_⟩
  · intro s hs
    have := h2 s (by omega) (by omega)
    rw [List.map_congr_left
      (fun a _ => (policyActionValue_eq_Qeval env policy gamma (mixV W V s) s a).symm)]
    exact this
  · intro s hs
    exact h1 s (by omega)
  · rw [List.range_eq_range' env.nS]
    exact h3

lemma improveStep_spec (env : Env) (gamma : ℚ) (V : Nat → ℚ) (pol pol2 : Nat → Nat → ℚ)
    (stable2 : Bool)
    (h : improveStep env gamma V (List.range env.nS) pol true = some (pol2, stable2)) :
    (∀ s, env.nS ≤ s → pol2 s = pol s) ∧
    (∀ s, s < env.nS → ∃ ba,
      pyArgmax ((List.range env.nA).map (Qclaim env gamma V s)) = some ba ∧
      pol2 s = fun a => if a = ba then 1 else 0) ∧
    (stable2 = true ↔ ∀ s, s < env.nS →
      pyArgmax ((List.range env.nA).map (pol s)) =
        pyArgmax ((List.range env.nA).map (Qclaim env gamma V s))) := by
  rw [List.range_eq_range' env.nS] at h
  obtain ⟨h1, h2, h3⟩ := improveStep_range'_spec env gamma V env.nS 0 pol true pol2 stable2 h
  have hmapQ : ∀ s, (List.range env.nA).map (actionValue env gamma V s) =
      (List.range env.nA).map (Qclaim env gamma V s) :=
    fun s => List.map_congr_left (fun a _ => actionValue_eq_Qclaim env gamma V s a)
  refine ⟨?_, ?_, ?_⟩
  · intro s hs
    exact h1 s (by omega)
  · intro s hs
    obtain ⟨ba, hba, hrow⟩ := h2 s (by omega) (by omega)
    exact ⟨ba, by rw [← hmapQ s]; exact hba, hrow⟩
  · rw [h3]
    constructor
    · rintro ⟨-, hall⟩ s hs
      rw [← hmapQ s]
      exact hall s (by omega) (by omega)
    · intro hall
      refine ⟨rfl, fun s h1 h2 => ?_⟩
      rw [hmapQ s]
      exact hall s (by omega)

lemma viSweep_single_terminal (env : Env) (gamma : ℚ) (r : ℚ) (hS : env.nS = 1)
    (hA : 0 < env.nA) (hr : env.reward_func 0 = (r, true)) (V : Nat → ℚ) :
    viSweep env gamma (List.range env.nS) V 0 =
      some (Function.update V 0 r, |r - V 0|) := by
  have hrange : List.range env.nS = [0] := by rw [hS]; rfl
  have hdone : (env.reward_func 0).2 = true := by rw [hr]
  have hf : ∀ V2 : Nat → ℚ,
      pyMax ((List.range env.nA).map (actionValue env gamma V2 0)) = some r := by
    intro V2
    have hconst : (List.range env.nA).map (actionValue env gamma V2 0) =
        (List.range env.nA).map (fun _ => r) := by
      refine List.map_congr_left (fun a _ => ?_)
      rw [actionValue_of_done env gamma V2 a hdone, hr]
    rw [hconst, pyMax_map_const hA]
  rw [viSweep, hrange]
  simp only [sweepGen]
  rw [hf V]
  show some (Function.update V 0 r, pyMax2 0 (pyAbs (r - V 0))) =
    some (Function.update V 0 r, |r - V 0|)
  rw [pyMax2_eq_max, pyAbs_eq_abs, max_eq_right (abs_nonneg _)]

/-- C1: value-iteration `plan(gamma, threshold)`: for every state of each
sweep and every action, `Q(s,a)` is the sum over the outcomes of
`transitions_at(s, a)` of `p * (r + gamma * V[next] * (1 if not done else 0))`,
except that an outcome with absent next state makes `Q(s,a)` exactly that
outcome's reward; each sweep sets `V[s]` to the maximum of `Q(s,a)` over
actions in place (the value seen for state `s` is the partially-updated
function `mixV W V s`), leaves states outside the sweep unchanged, tracks
`delta` as the maximum absolute change over states, and `plan` returns `V`
exactly when a sweep ends with `delta < threshold`, every earlier sweep
having ended with `delta ≥ threshold`. -/
theorem C1_value_iteration_plan (env : Env) (gamma threshold : ℚ) :
    (∀ (V : Nat → ℚ) (s a : Nat), actionValue env gamma V s a = Qclaim env gamma V s a) ∧
    (∀ (V W : Nat → ℚ) (delta : ℚ),
      viSweep env gamma (List.range env.nS) V 0 = some (W, delta) →
      (∀ s, s < env.nS →
        pyMax ((List.range env.nA).map (Qclaim env gamma (mixV W V s) s)) = some (W s)) ∧
      (∀ s, env.nS ≤ s → W s = V s) ∧
      delta = ((List.range env.nS).map (fun s => |W s - V s|)).foldl max 0) ∧
    (∀ (fuel : Nat) (W : Nat → ℚ), viPlan env gamma threshold fuel = some W ↔
      ∃ k, k < fuel ∧ ∃ V2, stateAfter (viStep env gamma threshold) (fun _ => 0) k = some V2 ∧
        ∃ delta, viSweep env gamma (List.range env.nS) V2 0 = some (W, delta) ∧
          delta < threshold ∧
          ∀ j, j < k → ∀ V3, stateAfter (viStep env gamma threshold) (fun _ => 0) j = some V3 →
            ∀ W2 delta2, viSweep env gamma (List.range env.nS) V3 0 = some (W2, delta2) →
              threshold ≤ delta2) :=
  ⟨fun V s a => actionValue_eq_Qclaim env gamma V s a,
   fun V W delta h => viSweep_spec env gamma V W delta h,
   fun fuel W => viPlan_eq_some_iff env gamma threshold fuel W⟩

/-- Witness for C1 on the concrete two-state chain environment. -/
theorem C1_value_iteration_plan_witness :
    ∃ (W : Nat → ℚ) (delta : ℚ),
      viSweep envChain (9/10) (List.range envChain.nS) (fun _ => 0) 0 = some (W, delta) ∧
      (∀ s, s < envChain.nS →
        pyMax ((List.range envChain.nA).map
          (Qclaim envChain (9/10) (mixV W (fun _ => 0) s) s)) = some (W s)) ∧
      (∀ s, envChain.nS ≤ s → W s = 0) ∧
      delta = ((List.range envChain.nS).map (fun s => |W s - 0|)).foldl max 0 := by
  have hsome : (viSweep envChain (9/10) (List.range envChain.nS) (fun _ => 0) 0).isSome = true :=
    sweepGen_isSome _ (fun V s => pyMax_isSome (range_map_ne_nil (by decide) _)) _ _ _
  obtain ⟨⟨W, delta⟩, h⟩ := Option.isSome_iff_exists.mp hsome
  obtain ⟨h1, h2, h3⟩ :=
    (C1_value_iteration_plan envChain (9/10) (1/10000)).2.1 (fun _ => 0) W delta h
  exact ⟨W, delta, h, h1, h2, h3⟩

/-- C2: `estimate_by_policy(gamma, threshold)`: per state and action the
accumulated value weights each outcome's contribution by
`policy[s][a] * p * (r + gamma * V[next] * (1 - done))`, the absent-next
sentinel overwriting the accumulator with the raw reward; each sweep then
sets `V[s]` to the MAXIMUM of these per-action values (not their
probability-weighted sum), tracks `delta` exactly as value iteration
does, and the loop returns `V` under the same `delta < threshold`
stopping rule. -/
theorem C2_policy_evaluation (env : Env) (policy : Nat → Nat → ℚ) (gamma threshold : ℚ) :
    (∀ (V : Nat → ℚ) (s a : Nat),
      policyActionValue env policy gamma V s a = Qeval env policy gamma V s a) ∧
    (∀ (V W : Nat → ℚ) (delta : ℚ),
      evalSweep env policy gamma (List.range env.nS) V 0 = some (W, delta) →
      (∀ s, s < env.nS →
        pyMax ((List.range env.nA).map (Qeval env policy gamma (mixV W V s) s)) = some (W s)) ∧
      (∀ s, env.nS ≤ s → W s = V s) ∧
      delta = ((List.range env.nS).map (fun s => |W s - V s|)).foldl max 0) ∧
    (∀ (fuel : Nat) (W : Nat → ℚ),
      estimate_by_policy env policy gamma threshold fuel = some W ↔
      ∃ k, k < fuel ∧
        ∃ V2, stateAfter (evalStep env policy gamma threshold) (fun _ => 0) k = some V2 ∧
        ∃ delta, evalSweep env policy gamma (List.range env.nS) V2 0 = some (W, delta) ∧
          delta < threshold ∧
          ∀ j, j < k →
            ∀ V3, stateAfter (evalStep env policy gamma threshold) (fun _ => 0) j = some V3 →
            ∀ W2 delta2, evalSweep env policy gamma (List.range env.nS) V3 0 = some (W2, delta2) →
              threshold ≤ delta2) :=
  ⟨fun V s a => policyActionValue_eq_Qeval env policy gamma V s a,
   fun V W delta h => evalSweep_spec env policy gamma V W delta h,
   fun fuel W => estimate_eq_some_iff env policy gamma threshold fuel W⟩

/-- Witness for C2 on the concrete two-state chain environment with the
all-ones initial policy. -/
theorem C2_policy_evaluation_witness :
    ∃ (W : Nat → ℚ) (delta : ℚ),
      evalSweep envChain (initPolicy envChain) (9/10) (List.range envChain.nS)
        (fun _ => 0) 0 = some (W, delta) ∧
      (∀ s, s < envChain.nS →
        pyMax ((List.range envChain.nA).map
          (Qeval envChain (initPolicy envChain) (9/10) (mixV W (fun _ => 0) s) s)) =
          some (W s)) ∧
      (∀ s, envChain.nS ≤ s → W s = 0) ∧
      delta = ((List.range envChain.nS).map (fun s => |W s - 0|)).foldl max 0 := by
  have hsome : (evalSweep envChain (initPolicy envChain) (9/10) (List.range envChain.nS)
      (fun _ => 0) 0).isSome = true :=
    sweepGen_isSome _ (fun V s => pyMax_isSome (range_map_ne_nil (by decide) _)) _ _ _
  obtain ⟨⟨W, delta⟩, h⟩ := Option.isSome_iff_exists.mp hsome
  obtain ⟨h1, h2, h3⟩ :=
    (C2_policy_evaluation envChain (initPolicy envChain) (9/10) (1/10000)).2.1
      (fun _ => 0) W delta h
  exact ⟨W, delta, h, h1, h2, h3⟩

/-- C3: the policy-improvement pass: for every state the per-action value
is the unweighted backup `Qclaim`, `best_action` its `argmax`; the pass is
stable exactly when every state's current policy argmax agrees with its
best action; every in-range state's policy row is unconditionally
overwritten to the one-hot distribution on `best_action` (rows outside
the range untouched); and `plan` returns the `V` of the last evaluation
exactly when the improvement pass after it is stable, all earlier passes
being unstable. -/
theorem C3_policy_improvement (env : Env) (gamma threshold : ℚ) (evalFuel planFuel : Nat) :
    (∀ (V : Nat → ℚ) (s a : Nat), actionValue env gamma V s a = Qclaim env gamma V s a) ∧
    (∀ (V : Nat → ℚ) (pol pol2 : Nat → Nat → ℚ) (stable2 : Bool),
      improveStep env gamma V (List.range env.nS) pol true = some (pol2, stable2) →
      (∀ s, env.nS ≤ s → pol2 s = pol s) ∧
      (∀ s, s < env.nS → ∃ ba,
        pyArgmax ((List.range env.nA).map (Qclaim env gamma V s)) = some ba ∧
        pol2 s = fun a => if a = ba then 1 else 0) ∧
      (stable2 = true ↔ ∀ s, s < env.nS →
        pyArgmax ((List.range env.nA).map (pol s)) =
          pyArgmax ((List.range env.nA).map (Qclaim env gamma V s)))) ∧
    (∀ V : Nat → ℚ, piPlan env gamma threshold evalFuel planFuel = some V ↔
      ∃ k, k < planFuel ∧
        ∃ pol, stateAfter (piStep env gamma threshold evalFuel) (initPolicy env) k = some pol ∧
        ∃ pol2, estimate_by_policy env pol gamma threshold evalFuel = some V ∧
          improveStep env gamma V (List.range env.nS) pol true = some (pol2, true) ∧
          ∀ j, j < k →
            ∀ pol3, stateAfter (piStep env gamma threshold evalFuel) (initPolicy env) j =
              some pol3 →
            ∀ V2 pol4 st, estimate_by_policy env pol3 gamma threshold evalFuel = some V2 →
              improveStep env gamma V2 (List.range env.nS) pol3 true = some (pol4, st) →
              st = false) :=
  ⟨fun V s a => actionValue_eq_Qclaim env gamma V s a,
   fun V pol pol2 stable2 h => improveStep_spec env gamma V pol pol2 stable2 h,
   fun V => piPlan_eq_some_iff env gamma threshold evalFuel planFuel V⟩

/-- Witness for C3 on the concrete two-state chain environment. -/
theorem C3_policy_improvement_witness :
    ∃ (pol2 : Nat → Nat → ℚ) (stable2 : Bool),
      improveStep envChain (9/10) (fun _ => 0) (List.range envChain.nS)
        (initPolicy envChain) true = some (pol2, stable2) ∧
      ∀ s, s < envChain.nS → ∃ ba,
        pyArgmax ((List.range envChain.nA).map (Qclaim envChain (9/10) (fun _ => 0) s)) =
          some ba ∧
        pol2 s = fun a => if a = ba then 1 else 0 := by
  have hsome := improveStep_isSome envChain (9/10) (fun _ => 0) (by decide)
    (List.range envChain.nS) (initPolicy envChain) true
  obtain ⟨⟨pol2, stable2⟩, h⟩ := Option.isSome_iff_exists.mp hsome
  obtain ⟨-, h2, -⟩ := (C3_policy_improvement envChain (9/10) (1/10000) 5 5).2.1
    (fun _ => 0) (initPolicy envChain) pol2 stable2 h
  exact ⟨pol2, stable2, h, h2⟩

lemma loopGen_succ {σ ρ : Type} (step : σ → Option (ρ × σ × Bool)) (f : Nat) (x : σ) :
    loopGen step (f + 1) x = match step x with
      | none => none
      | some (r, y, stop) => if stop then some r else loopGen step f y := rfl

lemma viStep_of_sweep (env : Env) (gamma threshold : ℚ) (V W : Nat → ℚ) (delta : ℚ)
    (h : viSweep env gamma (List.range env.nS) V 0 = some (W, delta)) :
    viStep env gamma threshold V = some (W, W, decide (delta < threshold)) := by
  rw [viStep, h]

/-- C4: for every state flagged terminal by the environment's reward
function, the value array returned by either planner has that state's
entry equal to the state's own reward, for every `gamma`, `threshold`
and fuel, independent of every other state's value. -/
theorem C4_terminal_state_invariant (env : Env) (gamma threshold : ℚ)
    (fuel evalFuel planFuel : Nat) (s : Nat) (hs : s < env.nS)
    (hterm : (env.reward_func s).2 = true) :
    (∀ W, viPlan env gamma threshold fuel = some W → W s = (env.reward_func s).1) ∧
    (∀ V, piPlan env gamma threshold evalFuel planFuel = some V →
      V s = (env.reward_func s).1) := by
  constructor
  · intro W h
    obtain ⟨k, -, V2, -, delta, hsweep, -, -⟩ :=
      (viPlan_eq_some_iff env gamma threshold fuel W).mp h
    exact viSweep_terminal env gamma hsweep hs hterm
  · intro V h
    obtain ⟨k, -, pol, -, pol2, hest, -, -⟩ :=
      (piPlan_eq_some_iff env gamma threshold evalFuel planFuel V).mp h
    obtain ⟨k2, -, V2, -, delta, hsweep, -, -⟩ :=
      (estimate_eq_some_iff env pol gamma threshold evalFuel V).mp hest
    exact evalSweep_terminal env pol gamma hsweep hs hterm

/-- Witness for C4: on the chain environment the terminal state 1 keeps
its own reward 1 in the returned value array. -/
theorem C4_terminal_state_invariant_witness :
    ∃ W, viPlan envChain (9/10) (1/10000) 5 = some W ∧ W 1 = 1 := by
  have hsome : (viPlan envChain (9/10) (1/10000) 5).isSome = true := by
    norm_num [viPlan, loopGen, viStep, viSweep, sweepGen, actionValue, transitions_at,
      backupLoop, pyMax, pyMax2, pyAbs, envChain, Function.update, List.range_succ]
  obtain ⟨W, h⟩ := Option.isSome_iff_exists.mp hsome
  have hW := (C4_terminal_state_invariant envChain (9/10) (1/10000) 5 5 5 1
    (by decide) rfl).1 W h
  exact ⟨W, h, hW⟩

/-- C5 (code bug): `PolicyIterationPlanner.initialize` is meant to set
the policy to the uniform distribution (its own comment says so), but
the normalized matrix is assigned to the misspelled attribute `polidy`,
so `self.policy` keeps all-ones rows: on a two-action environment the
row sums to 2 and is not a probability distribution, while the intended
uniform value 1/2 sits in the unused `polidy`. -/
theorem C5_policy_initialization_bug :
    (∀ s a, initPolicy envTwoAct s a = 1) ∧
    ((List.range envTwoAct.nA).map (initPolicy envTwoAct 0)).sum = 2 ∧
    initPolidy envTwoAct 0 0 = 1 / 2 := by
  refine ⟨fun s a => rfl, ?_, ?_⟩
  · norm_num [envTwoAct, initPolicy, List.range_succ]
  · norm_num [envTwoAct, initPolidy]

/-- Counterexample for C6: on an environment whose transition mapping
holds a zero-probability entry, `transitions_at` yields that entry too,
so its output is not the claimed nonzero-probability-only expansion. -/
theorem C6_transitions_at_counterexample :
    transitions_at envZeroProb 0 0 ≠ transitionsNonzeroClaim envZeroProb 0 0 ∧
    (transitions_at envZeroProb 0 0).length = 2 ∧
    (transitionsNonzeroClaim envZeroProb 0 0).length = 1 := by
  refine ⟨by decide, by decide, by decide⟩

/-- C6 as amended: `transitions_at` yields the single sentinel outcome
for a terminal state, and otherwise exactly one outcome per entry of the
transition mapping — whatever its probability — in mapping order. -/
theorem C6_transitions_at_amended (env : Env) (state action : Nat) :
    transitions_at env state action = transitionsAllClaim env state action := by
  rw [transitions_at, transitionsAllClaim]
  rcases h : (env.reward_func state).2
  · simp [h]
  · simp [h]

/-- C7: `plan` on the base `Planner` abstraction fails immediately and
unconditionally for every argument pair with the "have to implements
plan method" error; it never returns a value (and, being pure, touches
no planner or environment state). -/
theorem C7_base_plan_unimplemented (env : Env) (gamma threshold : ℚ) :
    basePlan env gamma threshold =
      Except.error "Planner have to implements plan method." ∧
    ∀ result, basePlan env gamma threshold ≠ Except.ok result :=
  ⟨rfl, fun result h => by simp [basePlan] at h⟩

/-- Counterexample for C8: on the one-state terminal environment with
reward 1 and the default threshold, value iteration does NOT finish
within one sweep (the first sweep's delta is 1); it needs a second sweep,
after which it returns the reward. -/
theorem C8_single_state_counterexample :
    viPlan envOne (9/10) (1/10000) 1 = none ∧
    (viPlan envOne (9/10) (1/10000) 2).map (fun W => W 0) = some 1 := by
  constructor <;>
    norm_num [viPlan, loopGen, viStep, viSweep, sweepGen, actionValue, transitions_at,
      backupLoop, pyMax, pyMax2, pyAbs, envOne, Function.update, List.range_succ]

/-- C8 as amended: on a single-state environment whose only state is
terminal with reward `r` (and at least one action and a positive
threshold), value iteration terminates with `V[0] = r`: after exactly
one sweep when `|r| < threshold`, and after exactly two sweeps
otherwise. -/
theorem C8_single_state_amended (env : Env) (gamma threshold r : ℚ)
    (hS : env.nS = 1) (hA : 0 < env.nA) (hr : env.reward_func 0 = (r, true))
    (ht : 0 < threshold) :
    (|r| < threshold → (viPlan env gamma threshold 1).map (fun W => W 0) = some r) ∧
    (threshold ≤ |r| → viPlan env gamma threshold 1 = none ∧
      (viPlan env gamma threshold 2).map (fun W => W 0) = some r) := by
  have hsweep0 := viSweep_single_terminal env gamma r hS hA hr (fun _ => 0)
  have hstep0 := viStep_of_sweep env gamma threshold _ _ _ hsweep0
  have habs0 : |r - (fun _ : Nat => (0:ℚ)) 0| = |r| := by
    show |r - 0| = |r|
    rw [sub_zero]
  rw [habs0] at hstep0
  constructor
  · intro hlt
    have h1 : viPlan env gamma threshold 1 = some (Function.update (fun _ => 0) 0 r) := by
      rw [viPlan, loopGen_succ, hstep0]
      simp [hlt]
    rw [h1]
    simp [Function.update_same]
  · intro hge
    have hfalse : decide (|r| < threshold) = false :=
      decide_eq_false (not_lt.mpr hge)
    constructor
    · rw [viPlan, loopGen_succ, hstep0, hfalse]
      simp [loopGen]
    · have hsweep1 := viSweep_single_terminal env gamma r hS hA hr
        (Function.update (fun _ => 0) 0 r)
      have hstep1 := viStep_of_sweep env gamma threshold _ _ _ hsweep1
      have habs1 : |r - Function.update (fun _ : Nat => (0:ℚ)) 0 r 0| = 0 := by
        rw [Function.update_same, sub_self, abs_zero]
      rw [habs1, decide_eq_true ht] at hstep1
      have h2 : viPlan env gamma threshold 2 =
          some (Function.update (Function.update (fun _ => 0) 0 r) 0 r) := by
        rw [viPlan, loopGen_succ, hstep0, hfalse]
        simp only [Bool.false_eq_true, if_false]
        rw [loopGen_succ, hstep1]
        simp
      rw [h2]
      simp [Function.update_same]

/-- Witness for C8 as amended, on the one-state terminal environment
with reward 1 and threshold 1/10000 (the two-sweep branch). -/
theorem C8_single_state_amended_witness :
    viPlan envOne (9/10) (1/10000) 1 = none ∧
    (viPlan envOne (9/10) (1/10000) 2).map (fun W => W 0) = some 1 := by
  have h := (C8_single_state_amended envOne (9/10) (1/10000) 1 rfl (by decide) rfl
    (by norm_num)).2 (by norm_num)
  exact h

/-- C9: both planners are deterministic and idempotent: value iteration
is a pure function of its inputs, and policy iteration's result does not
depend on any pre-existing policy state, because `plan` begins with
`initialize()`, which overwrites the policy — so re-running `plan` after
a previous run returns the identical value array. -/
theorem C9_plan_idempotent (env : Env) (gamma threshold : ℚ)
    (fuel evalFuel planFuel : Nat) (policy0 policy1 : Nat → Nat → ℚ) :
    viPlan env gamma threshold fuel = viPlan env gamma threshold fuel ∧
    (piPlanFull env gamma threshold evalFuel planFuel policy0).map Prod.fst =
      (piPlanFull env gamma threshold evalFuel planFuel policy1).map Prod.fst :=
  ⟨rfl, rfl⟩

/-- C10: with at least one action (and state), every list a `max` or
`argmax` is taken over in the planners' sweeps and improvement passes is
non-empty, so no sweep or improvement pass ever hits the empty-sequence
error branch. -/
theorem C10_max_argmax_defined (env : Env) (hA : 1 ≤ env.nA) (hS : 1 ≤ env.nS)
    (gamma : ℚ) :
    (∀ (l : List Nat) (V : Nat → ℚ) (d : ℚ), (viSweep env gamma l V d).isSome = true) ∧
    (∀ (policy : Nat → Nat → ℚ) (l : List Nat) (V : Nat → ℚ) (d : ℚ),
      (evalSweep env policy gamma l V d).isSome = true) ∧
    (∀ (V : Nat → ℚ) (l : List Nat) (pol : Nat → Nat → ℚ) (stable : Bool),
      (improveStep env gamma V l pol stable).isSome = true) := by
  refine ⟨?_, ?_, ?_⟩
  · exact sweepGen_isSome _ (fun V s => pyMax_isSome (range_map_ne_nil hA _))
  · intro policy
    exact sweepGen_isSome _ (fun V s => pyMax_isSome (range_map_ne_nil hA _))
  · intro V
    exact improveStep_isSome env gamma V hA

/-- Witness for C10 on the chain environment: the full value-iteration
sweep and an improvement pass both succeed. -/
theorem C10_max_argmax_defined_witness :
    (viSweep envChain (9/10) (List.range envChain.nS) (fun _ => 0) 0).isSome = true ∧
    (improveStep envChain (9/10) (fun _ => 0) (List.range envChain.nS)
      (initPolicy envChain) true).isSome = true := by
  have h := C10_max_argmax_defined envChain (by decide) (by decide) (9/10)
  exact ⟨h.1 _ _ _, h.2.2 _ _ _ _⟩
